import Mathlib

/-!
Verification of the bounded-parallelism batch-execution design described for
this repository (worker pool + dispatcher), and of the notebook functions
`matrix_loop` and `process_image` from `Day4/parallelism.ipynb`.

The notebook itself only calls `multiprocessing.Pool` (library code); the
Task / Worker Pool / Dispatcher component design is given in the specification
as a minimal abstraction of the notebook's `apply_async` / `get` usage.  The
pool is therefore modelled here from the specification as a small-step state
machine; the dispatcher `run_batch` follows the notebook's submit-all /
collect-in-submission-order loop.  `matrix_loop` and `process_image` are
embedded directly from the notebook source.
-/

namespace Pool

/-- Modelled from the spec: a Result is a per-task outcome, either a computed
value or the failure marker (`TaskError`), which is captured per task and does
not abort sibling tasks. -/
inductive TaskResult (β : Type) where
  | ok : β → TaskResult β
  | taskError : TaskResult β
deriving DecidableEq, Repr

/-- Modelled from the spec: the lifecycle of an accepted task inside the pool.
A task is queued on submission, running once a worker slot picks it up, and
done exactly when it has produced its one `TaskResult`. -/
inductive TaskPhase (β : Type) where
  | queued : TaskPhase β
  | running : TaskPhase β
  | done : TaskResult β → TaskPhase β
deriving DecidableEq, Repr

/-- `true` exactly on the `running` phase. -/
def TaskPhase.isRunning : TaskPhase β → Bool
  | .running => true
  | _ => false

/-- `true` exactly on the `done` phase. -/
def TaskPhase.isDone : TaskPhase β → Bool
  | .done _ => true
  | _ => false

/-- The result held by a `done` phase, if any. -/
def TaskPhase.toResult : TaskPhase β → Option (TaskResult β)
  | .done r => some r
  | _ => none

/-- Modelled from the spec: Pool State is { capacity, active_count } together
with the bookkeeping of submitted tasks.  `tasks` records the submitted task
descriptions in submission order (the handle of a task is its index), `phases`
records each submitted task's lifecycle phase, and `closed` is set by
`shutdown`. -/
structure PoolState (ι β : Type) where
  capacity : Nat
  tasks : List ι
  phases : List (TaskPhase β)
  closed : Bool
deriving DecidableEq, Repr

/-- Modelled from the spec: `active_count`, the number of concurrently
executing tasks of the pool. -/
def active_count (s : PoolState ι β) : Nat :=
  s.phases.countP TaskPhase.isRunning

/-- Every submitted task has a Result. -/
def allDone (s : PoolState ι β) : Bool :=
  s.phases.all TaskPhase.isDone

/-- Modelled from the spec: the error surface of `submit`. -/
inductive PoolError where
  | poolClosed
deriving DecidableEq, Repr

/-- A fresh pool of the given capacity: no submitted tasks, open. -/
def mkPool (ι β : Type) (cap : Nat) : PoolState ι β :=
  { capacity := cap, tasks := [], phases := [], closed := false }

/-- Modelled from the spec: `submit(task) -> handle` accepts a Task and fails
with `PoolClosed` if invoked after shutdown.  The handle of the accepted task
is its submission index. -/
def submit (s : PoolState ι β) (t : ι) : Except PoolError (PoolState ι β) :=
  if s.closed then .error .poolClosed
  else .ok { s with tasks := s.tasks ++ [t], phases := s.phases ++ [.queued] }

/-- Modelled from the spec: `shutdown(wait)` stops accepting new tasks.  The
result models the moment `shutdown` returns: with `wait = true` it is enabled
(returns) only once every previously submitted task has a Result; with
`wait = false` it returns at once. -/
def shutdown (s : PoolState ι β) (wait : Bool) : Option (PoolState ι β) :=
  if wait then
    if allDone s then some { s with closed := true } else none
  else
    some { s with closed := true }

/-- Modelled from the spec: the events of the pool.  `start i` is the pool
assigning a free worker slot to queued task `i`; `finish i` is the worker
running task `i` to completion, producing its Result. -/
inductive Event (ι : Type) where
  | submit : ι → Event ι
  | start : Nat → Event ι
  | finish : Nat → Event ι
  | shutdown : Bool → Event ι
deriving DecidableEq, Repr

/-- `true` on the internal execution events (`start` / `finish`) that a worker
pool performs on its own while a dispatcher waits; `false` on the client
events `submit` / `shutdown`. -/
def Event.isExec : Event ι → Bool
  | .start _ => true
  | .finish _ => true
  | _ => false

/-- Modelled from the spec: one small step of the pool.  `none` means the
event is not enabled at this state (a disabled event never fires in a trace):
a task may only start when it is queued, the pool is open and a worker slot is
free (`active_count < capacity`); a task may only finish when it is running,
and finishing records the task's one Result; `submit` after shutdown is
refused; `shutdown true` only returns once all submitted tasks are done. -/
def step (run : ι → TaskResult β) (s : PoolState ι β) : Event ι → Option (PoolState ι β)
  | .submit t => (Pool.submit s t).toOption
  | .start i =>
    match s.phases[i]? with
    | some .queued =>
      if s.closed then none
      else if active_count s < s.capacity then
        some { s with phases := s.phases.set i .running }
      else none
    | _ => none
  | .finish i =>
    match s.phases[i]?, s.tasks[i]? with
    | some .running, some t =>
      some { s with phases := s.phases.set i (.done (run t)) }
    | _, _ => none
  | .shutdown w => Pool.shutdown s w

/-- Run a trace of events from a state; `some` exactly when every event of the
trace is enabled in turn. -/
def runEvents (run : ι → TaskResult β) (s : PoolState ι β)
    (evs : List (Event ι)) : Option (PoolState ι β) :=
  evs.foldlM (step run) s

/-- Submit a whole batch in order through `submit`. -/
def submitAll (s : PoolState ι β) (ts : List ι) : Except PoolError (PoolState ι β) :=
  ts.foldlM submit s

/-- The dispatcher's collection loop: await the Result of every handle in
submission order; `some` exactly when every task has a Result. -/
def collectResults : List (TaskPhase β) → Option (List (TaskResult β))
  | [] => some []
  | ph :: phs =>
    match ph.toResult, collectResults phs with
    | some r, some rs => some (r :: rs)
    | _, _ => none

/-- Modelled from the spec, following the notebook's `pool_jobs` loop:
`run_batch` submits every task of the batch to a fresh pool, lets the pool run
(an arbitrary interleaving `sched` of start/finish events stands for the
unspecified completion order), and then collects one Result per handle in
submission order (the notebook's `for i, job in enumerate(pool_jobs): job.get()`
loop).  `some` exactly when the schedule was a valid, complete execution. -/
def run_batch (run : ι → TaskResult β) (cap : Nat) (tasks : List ι)
    (sched : List (Event ι)) : Option (List (TaskResult β)) :=
  match submitAll (mkPool ι β cap) tasks with
  | .error _ => none
  | .ok s0 =>
    match runEvents run s0 sched with
    | none => none
    | some s => collectResults s.phases

/-- The dispatcher invariant of a batch execution: the pool holds exactly the
submitted batch, one phase per task, and any Result already recorded is the
Result of the task at the same index. -/
def BatchInv (run : ι → TaskResult β) (tasks : List ι) (s : PoolState ι β) : Prop :=
  s.tasks = tasks ∧ s.phases.length = tasks.length ∧
    ∀ (i : Nat) (r : TaskResult β),
      s.phases[i]? = some (TaskPhase.done r) → ∃ t, tasks[i]? = some t ∧ r = run t

end Pool

namespace Day4

/-- 1-D dot product of two equal-length rows (`numpy` dot on vectors). -/
def dotList (xs ys : List Int) : Int :=
  (List.zipWith (fun a b => a * b) xs ys).sum

/-- `A.dot(B)` for row-major matrices: entry `(i, j)` is the dot product of
row `i` of `A` with column `j` of `B` (the rows of `B.transpose`). -/
def matMul (A B : List (List Int)) : List (List Int) :=
  A.map (fun r => B.transpose.map (fun c => dotList r c))

/-- Embedded from `Day4/parallelism.ipynb` (both the Process and the Pool
version of `matrix_loop`): task `index` computes
`mat[mat.shape[0] // 10 * index : mat.shape[0] // 10 * (index + 1)].dot(mat.T)`,
one chunk of rows of `mat.dot(mat.T)`.  A Python slice `mat[a:b]` is
`(mat.drop a).take (b - a)`. -/
def matrix_loop (mat : List (List Int)) (index : Nat) : List (List Int) :=
  let index_start := mat.length / 10 * index
  let index_end := mat.length / 10 * (index + 1)
  matMul ((mat.drop index_start).take (index_end - index_start)) mat.transpose

/-- The set of row indices of `mat.dot(mat.T)` that task `index` computes. -/
def coveredRows (mat : List (List Int)) (index r : Nat) : Prop :=
  mat.length / 10 * index ≤ r ∧ r < mat.length / 10 * (index + 1)

instance (mat : List (List Int)) (index r : Nat) :
    Decidable (coveredRows mat index r) := by
  unfold coveredRows
  infer_instance

/-- Python `sum(range(a, b))`. -/
def sumRange (a b : Nat) : Nat :=
  (List.range' a (b - a)).sum

/-- The batch of the spec's first example scenario: task `i` computes
`sum(range(i*100, (i+1)*100))`. -/
def sumTask (i : Nat) : Pool.TaskResult Nat :=
  .ok (sumRange (i * 100) ((i + 1) * 100))

/-- Modelled from the spec: index reflection of `scipy.ndimage` boundary mode
`reflect` (`(d c b a | a b c d | d c b a)`), mapping an arbitrary integer
coordinate into `[0, n)`.  `median_filter` is third-party library code, not
part of this repository. -/
def reflectIdx (n : Nat) (z : Int) : Nat :=
  if n = 0 then 0
  else
    let m := (z % (2 * (n : Int))).toNat
    if m < n then m else 2 * n - 1 - m

/-- Pixel lookup with reflected boundary handling. -/
def getReflect (frame : List (List Int)) (y x : Int) : Int :=
  let row := frame.getD (reflectIdx frame.length y) []
  row.getD (reflectIdx row.length x) 0

/-- The centred window offsets of a size-`s` filter footprint along one axis. -/
def offsets (s : Nat) : List Int :=
  (List.range s).map (fun j => Int.ofNat j - Int.ofNat (s / 2))

/-- The `s × s` footprint of pixel values around position `(i, j)`. -/
def window (frame : List (List Int)) (s : Nat) (i j : Nat) : List Int :=
  (offsets s).flatMap (fun dy =>
    (offsets s).map (fun dx => getReflect frame ((i : Int) + dy) ((j : Int) + dx)))

/-- The middle element of the sorted list of values (the rank used by the
median filter). -/
def median (l : List Int) : Int :=
  (l.mergeSort (fun a b => decide (a ≤ b))).getD (l.length / 2) 0

/-- Modelled from the spec: `scipy.ndimage.median_filter(frame, s)` — each
output pixel is the median of the size-`s` footprint around the corresponding
input pixel, with reflected boundaries; the output has the shape of the
input. -/
def median_filter (frame : List (List Int)) (s : Nat) : List (List Int) :=
  (List.range frame.length).map (fun i =>
    (List.range (frame.getD i []).length).map (fun j => median (window frame s i j)))

/-- Embedded from `Day4/parallelism.ipynb`, `process_image`:
`frame_smooth = ndimage.median_filter(frame, filtersize)`;
`processed_frame = frame - frame_smooth`; `return processed_frame`.
`numpy` subtraction of equal-shape arrays is elementwise. -/
def process_image (frame : List (List Int)) (filtersize : Nat := 50) : List (List Int) :=
  let frame_smooth := median_filter frame filtersize
  let processed_frame :=
    List.zipWith (fun r rs => List.zipWith (fun a b => a - b) r rs) frame frame_smooth
  processed_frame

end Day4

/-! ## Pool lemmas -/

namespace Pool

variable {ι β : Type}

theorem runEvents_nil (run : ι → TaskResult β) (s : PoolState ι β) :
    runEvents run s [] = some s := rfl

theorem runEvents_cons (run : ι → TaskResult β) (s : PoolState ι β) (ev : Event ι)
    (evs : List (Event ι)) :
    runEvents run s (ev :: evs) =
      (step run s ev).bind (fun s1 => runEvents run s1 evs) := by
  simp only [runEvents, List.foldlM_cons]
  rfl

/-- Exhaustive characterisation of an enabled pool event. -/
theorem step_eq_some {run : ι → TaskResult β} {s s2 : PoolState ι β} {ev : Event ι}
    (h : step run s ev = some s2) :
    (∃ t, ev = .submit t ∧ s.closed = false ∧
      s2 = { s with tasks := s.tasks ++ [t], phases := s.phases ++ [.queued] }) ∨
    (∃ i, ev = .start i ∧ s.phases[i]? = some .queued ∧ s.closed = false ∧
      active_count s < s.capacity ∧ s2 = { s with phases := s.phases.set i .running }) ∨
    (∃ i t, ev = .finish i ∧ s.phases[i]? = some .running ∧ s.tasks[i]? = some t ∧
      s2 = { s with phases := s.phases.set i (.done (run t)) }) ∨
    (∃ w, ev = .shutdown w ∧ (w = true → allDone s = true) ∧
      s2 = { s with closed := true }) := by
  cases ev with
  | submit t =>
    left
    simp only [step, Pool.submit] at h
    by_cases hc : s.closed = true
    · rw [if_pos hc] at h
      cases h
    · rw [if_neg hc] at h
      have hc2 : s.closed = false := by
        cases hcl : s.closed
        · rfl
        · exact absurd hcl hc
      exact ⟨t, rfl, hc2, (Option.some_inj.mp h).symm⟩
  | start i =>
    right; left
    simp only [step] at h
    cases hq : s.phases[i]? with
    | none => rw [hq] at h; cases h
    | some ph =>
      rw [hq] at h
      cases ph with
      | running => cases h
      | done r => cases h
      | queued =>
        by_cases hc : s.closed = true
        · rw [if_pos hc] at h
          cases h
        · rw [if_neg hc] at h
          by_cases hcap : active_count s < s.capacity
          · rw [if_pos hcap] at h
            have hc2 : s.closed = false := by
              cases hcl : s.closed
              · rfl
              · exact absurd hcl hc
            exact ⟨i, rfl, hq, hc2, hcap, (Option.some_inj.mp h).symm⟩
          · rw [if_neg hcap] at h
            cases h
  | finish i =>
    right; right; left
    simp only [step] at h
    cases hq : s.phases[i]? with
    | none => rw [hq] at h; cases h
    | some ph =>
      rw [hq] at h
      cases ph with
      | queued => cases h
      | done r => cases h
      | running =>
        cases ht : s.tasks[i]? with
        | none => rw [ht] at h; cases h
        | some t =>
          rw [ht] at h
          exact ⟨i, t, rfl, hq, ht, (Option.some_inj.mp h).symm⟩
  | shutdown w =>
    right; right; right
    simp only [step, Pool.shutdown] at h
    cases w with
    | true =>
      by_cases hd : allDone s = true
      · rw [if_pos rfl, if_pos hd] at h
        exact ⟨true, rfl, fun _ => hd, (Option.some_inj.mp h).symm⟩
      · rw [if_pos rfl, if_neg hd] at h
        cases h
    | false =>
      rw [if_neg (by simp)] at h
      exact ⟨false, rfl, fun hw => absurd hw Bool.false_ne_true, (Option.some_inj.mp h).symm⟩

/-- Predicate preservation along a valid trace. -/
theorem runEvents_preserve {P : PoolState ι β → Prop} (run : ι → TaskResult β) :
    ∀ (evs : List (Event ι)) (s s2 : PoolState ι β),
      (∀ s3 ev s4, ev ∈ evs → step run s3 ev = some s4 → P s3 → P s4) →
      runEvents run s evs = some s2 → P s → P s2
  | [], s, s2, _, h, hp => by
    rw [runEvents_nil] at h
    cases h
    exact hp
  | ev :: evs, s, s2, hstep, h, hp => by
    rw [runEvents_cons] at h
    cases h1 : step run s ev with
    | none => rw [h1] at h; cases h
    | some s1 =>
      rw [h1] at h
      simp only [Option.some_bind] at h
      exact runEvents_preserve run evs s1 s2
        (fun s3 e s4 he => hstep s3 e s4 (List.mem_cons_of_mem _ he)) h
        (hstep s ev s1 (List.mem_cons_self _ _) h1 hp)

theorem step_capacity_eq {run : ι → TaskResult β} {s s2 : PoolState ι β} {ev : Event ι}
    (h : step run s ev = some s2) : s2.capacity = s.capacity := by
  rcases step_eq_some h with ⟨t, _, _, rfl⟩ | ⟨i, _, _, _, _, rfl⟩ | ⟨i, t, _, _, _, rfl⟩ |
    ⟨w, _, _, rfl⟩ <;> rfl

/-- A recorded Result is never revoked or overwritten: once a task is done
with Result `r`, it stays done with Result `r` after any further event. -/
theorem step_done_persists {run : ι → TaskResult β} {s s2 : PoolState ι β} {ev : Event ι}
    {i : Nat} {r : TaskResult β} (h : step run s ev = some s2)
    (hd : s.phases[i]? = some (TaskPhase.done r)) :
    s2.phases[i]? = some (TaskPhase.done r) := by
  have hlt : i < s.phases.length := by
    rcases List.getElem?_eq_some_iff.mp hd with ⟨hlt, _⟩
    exact hlt
  rcases step_eq_some h with ⟨t, _, _, rfl⟩ | ⟨j, _, hq, _, _, rfl⟩ | ⟨j, t, _, hr, _, rfl⟩ |
    ⟨w, _, _, rfl⟩
  · simpa [List.getElem?_append_left hlt] using hd
  · have hne : j ≠ i := by
      intro e
      subst e
      rw [hq] at hd
      cases hd
    simpa [List.getElem?_set_ne hne] using hd
  · have hne : j ≠ i := by
      intro e
      subst e
      rw [hr] at hd
      cases hd
    simpa [List.getElem?_set_ne hne] using hd
  · exact hd

theorem runEvents_done_persists {run : ι → TaskResult β} {i : Nat} {r : TaskResult β}
    (evs : List (Event ι)) (s s2 : PoolState ι β) (h : runEvents run s evs = some s2)
    (hd : s.phases[i]? = some (TaskPhase.done r)) :
    s2.phases[i]? = some (TaskPhase.done r) :=
  runEvents_preserve run evs s s2 (fun _ _ _ _ hst hp => step_done_persists hst hp) h hd

/-- On an open pool, submitting a batch in order accepts every task and queues
it, in submission order. -/
theorem submitAll_open :
    ∀ (ts : List ι) (s : PoolState ι β), s.closed = false →
      submitAll s ts = .ok { s with tasks := s.tasks ++ ts,
                                    phases := s.phases ++ ts.map (fun _ => TaskPhase.queued) }
  | [], s, _ => by
    simp only [submitAll, List.foldlM_nil, List.append_nil, List.map_nil]
    rfl
  | t :: ts, s, h => by
    have hsub : submit s t = .ok { s with tasks := s.tasks ++ [t],
                                          phases := s.phases ++ [TaskPhase.queued] } := by
      simp [submit, h]
    have htail := submitAll_open ts { s with tasks := s.tasks ++ [t],
                                             phases := s.phases ++ [TaskPhase.queued] } h
    simp only [submitAll] at htail ⊢
    rw [List.foldlM_cons, hsub]
    exact htail.trans (by simp [List.append_assoc])

/-- The collection loop returns one Result per phase, positionally. -/
theorem collectResults_spec :
    ∀ (phs : List (TaskPhase β)) (res : List (TaskResult β)),
      collectResults phs = some res →
      res.length = phs.length ∧
        ∀ i : Nat, res[i]? = (phs[i]?).bind TaskPhase.toResult
  | [], res, h => by
    cases h
    exact ⟨rfl, fun i => by simp⟩
  | ph :: phs, res, h => by
    rw [collectResults] at h
    cases hph : ph.toResult with
    | none => rw [hph] at h; cases h
    | some r =>
      rw [hph] at h
      cases hrec : collectResults phs with
      | none => rw [hrec] at h; cases h
      | some rs =>
        rw [hrec] at h
        cases h
        rcases collectResults_spec phs rs hrec with ⟨hlen, hget⟩
        refine ⟨by simp [hlen], ?_⟩
        intro i
        cases i with
        | zero => simp [hph]
        | succ n => simpa using hget n

/-- The dispatcher invariant is preserved by the pool's own execution
events. -/
theorem step_batchInv {run : ι → TaskResult β} {tasks : List ι} {s s2 : PoolState ι β}
    {ev : Event ι} (hexec : ev.isExec = true) (h : step run s ev = some s2)
    (hinv : BatchInv run tasks s) : BatchInv run tasks s2 := by
  obtain ⟨htasks, hlen, hdone⟩ := hinv
  rcases step_eq_some h with ⟨t, heq, _, rfl⟩ | ⟨j, heq, hq, _, _, rfl⟩ |
    ⟨j, t, heq, hr, ht, rfl⟩ | ⟨w, heq, _, rfl⟩
  · subst heq
    cases hexec
  · refine ⟨htasks, by simpa using hlen, ?_⟩
    intro i r hd
    by_cases hij : j = i
    · subst hij
      have hjlt : j < s.phases.length := (List.getElem?_eq_some_iff.mp hq).1
      rw [List.getElem?_set_self hjlt] at hd
      cases hd
    · rw [List.getElem?_set_ne hij] at hd
      exact hdone i r hd
  · refine ⟨htasks, by simpa using hlen, ?_⟩
    intro i r hd
    by_cases hij : j = i
    · subst hij
      have hjlt : j < s.phases.length := (List.getElem?_eq_some_iff.mp hr).1
      rw [List.getElem?_set_self hjlt] at hd
      cases hd
      exact ⟨t, htasks ▸ ht, rfl⟩
    · rw [List.getElem?_set_ne hij] at hd
      exact hdone i r hd
  · exact ⟨htasks, hlen, hdone⟩

/-- The initial state of a batch execution. -/
theorem submitAll_mkPool (cap : Nat) (tasks : List ι) :
    submitAll (mkPool ι β cap) tasks = .ok { capacity := cap, tasks := tasks,
                                             phases := tasks.map (fun _ => TaskPhase.queued),
                                             closed := false } := by
  rw [submitAll_open tasks (mkPool ι β cap) rfl]
  rfl

/-- Core dispatcher correctness: a successful `run_batch` over any schedule of
pool-internal events returns exactly the Results of the submitted tasks, in
submission order. -/
theorem run_batch_unfold (run : ι → TaskResult β) (cap : Nat) (tasks : List ι)
    (sched : List (Event ι)) :
    run_batch run cap tasks sched =
      match runEvents run { capacity := cap, tasks := tasks,
                            phases := tasks.map (fun _ => TaskPhase.queued),
                            closed := false } sched with
      | none => none
      | some s => collectResults s.phases := by
  unfold run_batch
  rw [submitAll_mkPool cap tasks]

theorem run_batch_eq_map {run : ι → TaskResult β} {cap : Nat} {tasks : List ι}
    {sched : List (Event ι)} {res : List (TaskResult β)}
    (hexec : ∀ ev ∈ sched, ev.isExec = true)
    (h : run_batch run cap tasks sched = some res) :
    res = tasks.map run := by
  rw [run_batch_unfold run cap tasks sched] at h
  cases hrun : runEvents run { capacity := cap, tasks := tasks,
                               phases := tasks.map (fun _ => TaskPhase.queued),
                               closed := false } sched with
  | none =>
    rw [hrun] at h
    have h2 : (none : Option (List (TaskResult β))) = some res := h
    cases h2
  | some s =>
    rw [hrun] at h
    have hcol : collectResults s.phases = some res := h
    have hinv0 : BatchInv run tasks { capacity := cap, tasks := tasks,
                                      phases := tasks.map (fun _ => TaskPhase.queued),
                                      closed := false } := by
      refine ⟨rfl, by simp, ?_⟩
      intro i r hd
      rw [List.getElem?_map] at hd
      cases hti : tasks[i]? with
      | none => rw [hti] at hd; cases hd
      | some t => rw [hti] at hd; cases hd
    have hinv : BatchInv run tasks s :=
      runEvents_preserve run sched _ s
        (fun _ ev _ hmem hst hp => step_batchInv (hexec ev hmem) hst hp) hrun hinv0
    obtain ⟨htasks, hlen, hdone⟩ := hinv
    rcases collectResults_spec s.phases res hcol with ⟨hreslen, hresget⟩
    apply List.ext_getElem?
    intro i
    cases hti : tasks[i]? with
    | none =>
      have hged : tasks.length ≤ i := by
        by_contra hlt
        push_neg at hlt
        rcases List.getElem?_eq_some_iff.mpr ⟨hlt, rfl⟩ with h2
        rw [hti] at h2
        cases h2
      rw [List.getElem?_eq_none (show res.length ≤ i by omega),
        List.getElem?_eq_none (show (tasks.map run).length ≤ i by simpa using hged)]
    | some t =>
      have hilt : i < tasks.length := (List.getElem?_eq_some_iff.mp hti).1
      have hpi : i < s.phases.length := by omega
      rcases List.getElem?_eq_some_iff.mpr ⟨hpi, rfl⟩ with hphi
      cases hph : s.phases[i] with
      | queued =>
        have := hresget i
        rw [hphi, hph] at this
        have hrlt : i < res.length := by omega
        rcases List.getElem?_eq_some_iff.mpr ⟨hrlt, rfl⟩ with hri
        rw [hri] at this
        cases this
      | running =>
        have := hresget i
        rw [hphi, hph] at this
        have hrlt : i < res.length := by omega
        rcases List.getElem?_eq_some_iff.mpr ⟨hrlt, rfl⟩ with hri
        rw [hri] at this
        cases this
      | done r =>
        have hres := hresget i
        rw [hphi, hph] at hres
        have hinvr := hdone i r (by rw [hphi, hph])
        rcases hinvr with ⟨t2, ht2, hrt⟩
        rw [hti] at ht2
        cases ht2
        rw [hres, List.getElem?_map, hti]
        simp [TaskPhase.toResult, hrt]

/-- One step never pushes `active_count` above `capacity`. -/
theorem step_active_le {run : ι → TaskResult β} {s s2 : PoolState ι β} {ev : Event ι}
    (h : step run s ev = some s2) (hc : active_count s ≤ s.capacity) :
    active_count s2 ≤ s2.capacity := by
  rcases step_eq_some h with ⟨t, _, _, rfl⟩ | ⟨i, _, hq, _, hcap, rfl⟩ |
    ⟨i, t, _, hr, _, rfl⟩ | ⟨w, _, _, rfl⟩
  · simp only [active_count, List.countP_append] at *
    simpa [TaskPhase.isRunning] using hc
  · obtain ⟨hlt, hget⟩ := List.getElem?_eq_some_iff.mp hq
    simp only [active_count] at *
    rw [List.countP_set _ _ _ _ hlt, hget]
    simp only [TaskPhase.isRunning, if_true, if_false]
    omega
  · obtain ⟨hlt, hget⟩ := List.getElem?_eq_some_iff.mp hr
    simp only [active_count] at *
    rw [List.countP_set _ _ _ _ hlt, hget]
    simp [TaskPhase.isRunning]
    omega
  · exact hc

theorem runEvents_active_le {run : ι → TaskResult β} {cap : Nat}
    (evs : List (Event ι)) (s s2 : PoolState ι β) (h : runEvents run s evs = some s2)
    (h0 : active_count s ≤ s.capacity) (hcap : s.capacity = cap) :
    active_count s2 ≤ cap ∧ s2.capacity = cap := by
  have hpres := runEvents_preserve
    (P := fun st => active_count st ≤ st.capacity ∧ st.capacity = cap) run evs s s2
    (fun _ ev _ _ hst hp => ⟨step_active_le hst hp.1, (step_capacity_eq hst).trans hp.2⟩)
    h ⟨h0, hcap⟩
  exact ⟨hpres.2 ▸ hpres.1, hpres.2⟩

/-- Once task `i` is done, no further valid trace ever fires `finish i`
again. -/
theorem count_finish_zero_of_done [DecidableEq ι] {run : ι → TaskResult β} {i : Nat}
    {r : TaskResult β} :
    ∀ (evs : List (Event ι)) (s s2 : PoolState ι β), runEvents run s evs = some s2 →
      s.phases[i]? = some (TaskPhase.done r) → evs.count (Event.finish i) = 0
  | [], _, _, _, _ => rfl
  | ev :: evs, s, s2, h, hd => by
    rw [runEvents_cons] at h
    cases h1 : step run s ev with
    | none => rw [h1] at h; cases h
    | some s1 =>
      rw [h1] at h
      simp only [Option.some_bind] at h
      have hrest := count_finish_zero_of_done evs s1 s2 h (step_done_persists h1 hd)
      have hne : ev ≠ Event.finish i := by
        intro e
        subst e
        simp [step, hd] at h1
      simp [List.count_cons, hrest, hne]

/-- At-most-once execution: a valid trace fires `finish i` at most once. -/
theorem count_finish_le_one [DecidableEq ι] {run : ι → TaskResult β} {i : Nat} :
    ∀ (evs : List (Event ι)) (s s2 : PoolState ι β), runEvents run s evs = some s2 →
      evs.count (Event.finish i) ≤ 1
  | [], _, _, _ => by simp
  | ev :: evs, s, s2, h => by
    rw [runEvents_cons] at h
    cases h1 : step run s ev with
    | none => rw [h1] at h; cases h
    | some s1 =>
      rw [h1] at h
      simp only [Option.some_bind] at h
      by_cases he : ev = Event.finish i
      · subst he
        rcases step_eq_some h1 with ⟨t, hev, _, _⟩ | ⟨j, hev, _, _, _, _⟩ |
          ⟨j, t, hev, hr, ht, hs1⟩ | ⟨w, hev, _, _⟩
        · cases hev
        · cases hev
        · cases hev
          have hlt : i < s.phases.length := (List.getElem?_eq_some_iff.mp hr).1
          have hdone1 : s1.phases[i]? = some (TaskPhase.done (run t)) := by
            rw [hs1]
            exact List.getElem?_set_self hlt
          have h0 := count_finish_zero_of_done evs s1 s2 h hdone1
          simp [List.count_cons, h0]
        · cases hev
      · have hrest := count_finish_le_one (i := i) evs s1 s2 h
        simpa [List.count_cons, he] using hrest

/-- A closed pool stays closed. -/
theorem step_closed_persists {run : ι → TaskResult β} {s s2 : PoolState ι β} {ev : Event ι}
    (h : step run s ev = some s2) (hc : s.closed = true) : s2.closed = true := by
  rcases step_eq_some h with ⟨t, _, hcf, rfl⟩ | ⟨i, _, _, hcf, _, rfl⟩ |
    ⟨i, t, _, _, _, rfl⟩ | ⟨w, _, _, rfl⟩
  · rw [hc] at hcf; cases hcf
  · rw [hc] at hcf; cases hcf
  · exact hc
  · rfl

theorem runEvents_closed_persists {run : ι → TaskResult β}
    (evs : List (Event ι)) (s s2 : PoolState ι β) (h : runEvents run s evs = some s2)
    (hc : s.closed = true) : s2.closed = true :=
  runEvents_preserve run evs s s2 (fun _ _ _ _ hst hp => step_closed_persists hst hp) h hc

/-- Along a trace with no shutdown event, the closed flag is unchanged. -/
theorem runEvents_closed_eq {run : ι → TaskResult β} :
    ∀ (evs : List (Event ι)) (s s2 : PoolState ι β), runEvents run s evs = some s2 →
      (∀ w, Event.shutdown w ∉ evs) → s2.closed = s.closed
  | [], s, s2, h, _ => by
    rw [runEvents_nil] at h
    cases h
    rfl
  | ev :: evs, s, s2, h, hns => by
    rw [runEvents_cons] at h
    cases h1 : step run s ev with
    | none => rw [h1] at h; cases h
    | some s1 =>
      rw [h1] at h
      simp only [Option.some_bind] at h
      have htail := runEvents_closed_eq evs s1 s2 h
        (fun w hmem => hns w (List.mem_cons_of_mem _ hmem))
      have hstep : s1.closed = s.closed := by
        rcases step_eq_some h1 with ⟨t, _, hcf, rfl⟩ | ⟨i, _, _, hcf, _, rfl⟩ |
          ⟨i, t, _, _, _, rfl⟩ | ⟨w, hev, _, rfl⟩
        · simp [hcf]
        · rfl
        · rfl
        · exact absurd (hev ▸ List.mem_cons_self _ _) (hns w)
      rw [htail, hstep]

/-- A shutdown event in a valid trace closes the pool for good. -/
theorem runEvents_closed_of_shutdown_mem {run : ι → TaskResult β} :
    ∀ (evs : List (Event ι)) (s s2 : PoolState ι β) (w : Bool),
      runEvents run s evs = some s2 → Event.shutdown w ∈ evs → s2.closed = true
  | [], _, _, _, _, hmem => absurd hmem (List.not_mem_nil _)
  | ev :: evs, s, s2, w, h, hmem => by
    rw [runEvents_cons] at h
    cases h1 : step run s ev with
    | none => rw [h1] at h; cases h
    | some s1 =>
      rw [h1] at h
      simp only [Option.some_bind] at h
      rcases List.mem_cons.mp hmem with he | hmem2
      · rcases step_eq_some h1 with ⟨t, hev, _, _⟩ | ⟨i, hev, _, _, _, _⟩ |
          ⟨i, t, hev, _, _, _⟩ | ⟨w2, hev, _, hs1⟩
        · rw [hev] at he; cases he
        · rw [hev] at he; cases he
        · rw [hev] at he; cases he
        · exact runEvents_closed_persists evs s1 s2 h (by rw [hs1])
      · exact runEvents_closed_of_shutdown_mem evs s1 s2 w h hmem2

/-- After the pool is closed, a queued (not yet started) task stays queued:
it is abandoned, never started. -/
theorem runEvents_queued_frozen {run : ι → TaskResult β} {i : Nat}
    (evs : List (Event ι)) (s s2 : PoolState ι β) (h : runEvents run s evs = some s2)
    (hc : s.closed = true) (hq : s.phases[i]? = some TaskPhase.queued) :
    s2.phases[i]? = some TaskPhase.queued := by
  have hpres := runEvents_preserve
    (P := fun st => st.closed = true ∧ st.phases[i]? = some TaskPhase.queued) run evs s s2
    (fun s3 ev s4 _ hst hp => by
      rcases step_eq_some hst with ⟨t, _, hcf, rfl⟩ | ⟨j, _, _, hcf, _, rfl⟩ |
        ⟨j, t, _, hr, _, rfl⟩ | ⟨w, _, _, rfl⟩
      · rw [hp.1] at hcf; cases hcf
      · rw [hp.1] at hcf; cases hcf
      · refine ⟨hp.1, ?_⟩
        have hne : j ≠ i := by
          intro e
          subst e
          rw [hp.2] at hr
          cases hr
        rw [List.getElem?_set_ne hne]
        exact hp.2
      · exact ⟨rfl, hp.2⟩)
    h ⟨hc, hq⟩
  exact hpres.2

end Pool

/-! ## Notebook lemmas -/

namespace Day4

theorem matMul_length (A B : List (List Int)) : (matMul A B).length = A.length := by
  simp [matMul]

/-- `matMul` works row by row, so slicing rows of the left factor first equals
computing the full product and then slicing its rows. -/
theorem matMul_take_drop (A B : List (List Int)) (a k : Nat) :
    matMul ((A.drop a).take k) B = ((matMul A B).drop a).take k := by
  simp [matMul, List.map_take, List.map_drop]

/-- Task `index` computes exactly the rows
`[len / 10 * index, len / 10 * (index + 1))` of the full product. -/
theorem matrix_loop_eq_slice (mat : List (List Int)) (index : Nat) :
    matrix_loop mat index =
      ((matMul mat mat.transpose).drop (mat.length / 10 * index)).take (mat.length / 10) := by
  have hsucc : mat.length / 10 * (index + 1) = mat.length / 10 * index + mat.length / 10 :=
    Nat.mul_succ _ _
  have harith : mat.length / 10 * (index + 1) - mat.length / 10 * index = mat.length / 10 := by
    omega
  simp only [matrix_loop, harith]
  exact matMul_take_drop mat mat.transpose _ _

/-- Gluing consecutive `k`-row chunks in index order yields the `k * m`-row
front of the list. -/
theorem chunks_join {α : Type} (L : List α) (k : Nat) :
    ∀ m : Nat, (List.range m).flatMap (fun i => (L.drop (k * i)).take k) = L.take (k * m)
  | 0 => by simp
  | m + 1 => by
    rw [List.range_succ, List.flatMap_append, chunks_join L k m, List.flatMap_cons,
      List.flatMap_nil, List.append_nil, Nat.mul_succ, List.take_add]

theorem join_matrix_loop (mat : List (List Int)) :
    (List.range 10).flatMap (matrix_loop mat) =
      (matMul mat mat.transpose).take (mat.length / 10 * 10) := by
  have hfun : matrix_loop mat = fun i =>
      ((matMul mat mat.transpose).drop (mat.length / 10 * i)).take (mat.length / 10) :=
    funext (matrix_loop_eq_slice mat)
  rw [hfun, chunks_join (matMul mat mat.transpose) (mat.length / 10) 10]

/-- The ten chunks rebuild the whole product exactly when the row count is
divisible by 10. -/
theorem join_matrix_loop_iff (mat : List (List Int)) :
    (List.range 10).flatMap (matrix_loop mat) = matMul mat mat.transpose ↔
      10 ∣ mat.length := by
  rw [join_matrix_loop]
  constructor
  · intro h
    have hlen := congrArg List.length h
    rw [List.length_take, matMul_length] at hlen
    have hle : mat.length / 10 * 10 ≤ mat.length := Nat.div_mul_le_self _ _
    have heq : mat.length / 10 * 10 = mat.length := by omega
    exact Dvd.intro (mat.length / 10) (by omega)
  · intro h
    rw [Nat.div_mul_cancel h, ← matMul_length mat mat.transpose, List.take_length]

/-- The median of a non-empty constant list is that constant. -/
theorem median_of_const {l : List Int} {c : Int} (hne : l ≠ [])
    (hall : ∀ x ∈ l, x = c) : median l = c := by
  unfold median
  have hlen : (l.mergeSort (fun a b => decide (a ≤ b))).length = l.length :=
    List.length_mergeSort l
  have hlt : l.length / 2 < l.length := Nat.div_lt_self (List.length_pos.mpr hne) (by omega)
  have hlt2 : l.length / 2 < (l.mergeSort (fun a b => decide (a ≤ b))).length := by omega
  rw [List.getD_eq_getElem?_getD, List.getElem?_eq_some_iff.mpr ⟨hlt2, rfl⟩,
    Option.getD_some]
  exact hall _ (List.mem_mergeSort.mp (List.getElem_mem hlt2))

/-- Reflection always lands inside the array. -/
theorem reflectIdx_lt {n : Nat} (hn : 0 < n) (z : Int) : reflectIdx n z < n := by
  have h2n : (0 : Int) < 2 * (n : Int) := by omega
  have hge : (0 : Int) ≤ z % (2 * (n : Int)) := Int.emod_nonneg z (by omega)
  have hlt : z % (2 * (n : Int)) < 2 * (n : Int) := Int.emod_lt_of_pos z h2n
  simp only [reflectIdx]
  rw [if_neg (by omega : ¬ n = 0)]
  split_ifs with h
  · exact h
  · omega

/-- A `getD` hit inside the range is a member of the list. -/
theorem getD_mem_of_lt {α : Type} {l : List α} {i : Nat} {d : α} (h : i < l.length) :
    l.getD i d ∈ l := by
  rw [List.getD_eq_getElem?_getD]
  cases hf : l[i]? with
  | none =>
    rw [List.getElem?_eq_none_iff] at hf
    omega
  | some r =>
    rw [Option.getD_some]
    exact List.getElem?_mem hf

/-- On a constant rectangular frame every reflected lookup returns the
constant. -/
theorem getReflect_const {frame : List (List Int)} {c : Int} {w : Nat}
    (hn : 0 < frame.length) (hw : 0 < w)
    (hrect : ∀ row ∈ frame, row.length = w)
    (hconst : ∀ row ∈ frame, ∀ x ∈ row, x = c)
    (y x : Int) : getReflect frame y x = c := by
  unfold getReflect
  have h1 : reflectIdx frame.length y < frame.length := reflectIdx_lt hn y
  have hmem : frame.getD (reflectIdx frame.length y) [] ∈ frame := getD_mem_of_lt h1
  have hrow : (frame.getD (reflectIdx frame.length y) []).length = w := hrect _ hmem
  have h2 : reflectIdx (frame.getD (reflectIdx frame.length y) []).length x <
      (frame.getD (reflectIdx frame.length y) []).length := by
    rw [hrow]
    exact reflectIdx_lt hw x
  exact hconst _ hmem _ (getD_mem_of_lt h2)

/-- The filter footprint is never empty for a positive filter size. -/
theorem window_ne_nil {frame : List (List Int)} {s i j : Nat} (hs : 0 < s) :
    window frame s i j ≠ [] := by
  intro hnil
  rw [window, List.flatMap_eq_nil_iff] at hnil
  have hoff : offsets s ≠ [] := by
    have hlen : (offsets s).length = s := by
      rw [offsets, List.length_map, List.length_range]
    intro he
    rw [he] at hlen
    simp only [List.length_nil] at hlen
    omega
  rcases List.exists_mem_of_ne_nil _ hoff with ⟨dy, hdy⟩
  have := hnil dy hdy
  rw [List.map_eq_nil_iff] at this
  exact hoff this

/-- Every value in the footprint of a constant rectangular frame is the
constant. -/
theorem window_const {frame : List (List Int)} {c : Int} {w : Nat} {s i j : Nat}
    (hn : 0 < frame.length) (hw : 0 < w)
    (hrect : ∀ row ∈ frame, row.length = w)
    (hconst : ∀ row ∈ frame, ∀ x ∈ row, x = c) :
    ∀ v ∈ window frame s i j, v = c := by
  intro v hv
  rw [window, List.mem_flatMap] at hv
  rcases hv with ⟨dy, _, hv⟩
  rw [List.mem_map] at hv
  rcases hv with ⟨dx, _, hv⟩
  rw [← hv]
  exact getReflect_const hn hw hrect hconst _ _

theorem median_filter_length (frame : List (List Int)) (s : Nat) :
    (median_filter frame s).length = frame.length := by
  simp [median_filter]

theorem median_filter_entry {frame : List (List Int)} {s i j : Nat}
    (hi : i < frame.length) (hj : j < (frame.getD i []).length) :
    ((median_filter frame s).getD i []).getD j 0 = median (window frame s i j) := by
  unfold median_filter
  simp only [List.getD_eq_getElem?_getD] at hj ⊢
  rw [List.getElem?_map, List.getElem?_range hi, Option.map_some', Option.getD_some,
    List.getElem?_map, List.getElem?_range hj, Option.map_some', Option.getD_some]

theorem median_filter_row_length (frame : List (List Int)) (s : Nat) (i : Nat) :
    ((median_filter frame s).getD i []).length = (frame.getD i []).length := by
  by_cases hi : i < frame.length
  · unfold median_filter
    simp only [List.getD_eq_getElem?_getD]
    rw [List.getElem?_map, List.getElem?_range hi, Option.map_some', Option.getD_some,
      List.length_map, List.length_range]
  · have h1 : frame.length ≤ i := by omega
    simp only [List.getD_eq_getElem?_getD]
    rw [List.getElem?_eq_none (show (median_filter frame s).length ≤ i by
        rw [median_filter_length]; omega),
      List.getElem?_eq_none h1]

theorem process_image_def (frame : List (List Int)) (filtersize : Nat) :
    process_image frame filtersize =
      List.zipWith (fun r rs => List.zipWith (fun a b => a - b) r rs)
        frame (median_filter frame filtersize) := rfl

theorem process_image_length (frame : List (List Int)) (filtersize : Nat) :
    (process_image frame filtersize).length = frame.length := by
  rw [process_image_def, List.length_zipWith, median_filter_length]
  exact min_self _

theorem process_image_row_length (frame : List (List Int)) (filtersize i : Nat) :
    ((process_image frame filtersize).getD i []).length = (frame.getD i []).length := by
  have hrl := median_filter_row_length frame filtersize i
  rw [process_image_def]
  simp only [List.getD_eq_getElem?_getD] at hrl ⊢
  rw [List.getElem?_zipWith]
  cases hf : frame[i]? with
  | none =>
    have h2 : (median_filter frame filtersize)[i]? = none := by
      rw [List.getElem?_eq_none_iff, median_filter_length]
      rw [List.getElem?_eq_none_iff] at hf
      exact hf
    simp [h2]
  | some r =>
    cases hm : (median_filter frame filtersize)[i]? with
    | none =>
      rw [List.getElem?_eq_none_iff, median_filter_length] at hm
      have := (List.getElem?_eq_some_iff.mp hf).1
      omega
    | some rm =>
      rw [hf, hm] at hrl
      simp only [Option.getD_some] at hrl
      show (List.zipWith (fun a b => a - b) r rm).length = r.length
      simp [List.length_zipWith, hrl]

theorem process_image_entry {frame : List (List Int)} {filtersize i j : Nat}
    (hi : i < frame.length) (hj : j < (frame.getD i []).length) :
    ((process_image frame filtersize).getD i []).getD j 0 =
      (frame.getD i []).getD j 0 - median (window frame filtersize i j) := by
  have hmf := median_filter_entry (s := filtersize) hi hj
  have hrl := median_filter_row_length frame filtersize i
  rw [process_image_def]
  simp only [List.getD_eq_getElem?_getD] at hmf hrl hj ⊢
  rw [List.getElem?_zipWith]
  cases hf : frame[i]? with
  | none =>
    rw [List.getElem?_eq_none_iff] at hf
    omega
  | some r =>
    cases hm : (median_filter frame filtersize)[i]? with
    | none =>
      rw [List.getElem?_eq_none_iff, median_filter_length] at hm
      have := (List.getElem?_eq_some_iff.mp hf).1
      omega
    | some rm =>
      rw [hf] at hj
      rw [hf, hm] at hrl
      rw [hm] at hmf
      simp only [Option.getD_some] at hmf hrl hj ⊢
      rw [List.getElem?_zipWith]
      cases hr2 : r[j]? with
      | none =>
        rw [List.getElem?_eq_none_iff] at hr2
        omega
      | some a =>
        cases hm2 : rm[j]? with
        | none =>
          rw [List.getElem?_eq_none_iff] at hm2
          omega
        | some b =>
          rw [hm2] at hmf
          simp only [Option.getD_some] at hmf ⊢
          rw [hmf]

theorem process_image_const_zero {frame : List (List Int)} {filtersize : Nat} {c : Int}
    {w : Nat} (hs : 0 < filtersize)
    (hrect : ∀ row ∈ frame, row.length = w)
    (hconst : ∀ row ∈ frame, ∀ x ∈ row, x = c) :
    ∀ i j : Nat, ((process_image frame filtersize).getD i []).getD j 0 = 0 := by
  intro i j
  by_cases hi : i < frame.length
  · by_cases hj : j < (frame.getD i []).length
    · have hmem : frame.getD i [] ∈ frame := getD_mem_of_lt hi
      have hwlen : (frame.getD i []).length = w := hrect _ hmem
      have hw : 0 < w := by omega
      have hentry := @process_image_entry frame filtersize i j hi hj
      rw [hentry]
      have hval : (frame.getD i []).getD j 0 = c := hconst _ hmem _ (getD_mem_of_lt hj)
      have hmed : median (window frame filtersize i j) = c :=
        median_of_const (window_ne_nil hs) (window_const (by omega) hw hrect hconst)
      rw [hval, hmed]
      exact sub_self c
    · have h2 : ((process_image frame filtersize).getD i []).length ≤ j := by
        rw [process_image_row_length]
        omega
      rw [List.getD_eq_getElem?_getD ((process_image frame filtersize).getD i []) j 0,
        List.getElem?_eq_none h2]
      rfl
  · have h1 : (process_image frame filtersize).length ≤ i := by
      rw [process_image_length]
      omega
    rw [List.getD_eq_getElem?_getD (process_image frame filtersize) i [],
      List.getElem?_eq_none h1]
    rfl

end Day4

/-! ## Claim theorems -/

/-- C1: For every batch of N independent tasks submitted via `run_batch`, the
returned sequence contains exactly N results, and the result at position i is
the Result produced by the task with index i, for every completion order
(schedule of pool-internal start/finish events) the pool may exhibit. -/
theorem C1_run_batch_positional {ι β : Type} (run : ι → Pool.TaskResult β) (cap : Nat)
    (tasks : List ι) (sched : List (Pool.Event ι)) (res : List (Pool.TaskResult β))
    (hexec : ∀ ev ∈ sched, ev.isExec = true)
    (hbatch : Pool.run_batch run cap tasks sched = some res) :
    res.length = tasks.length ∧
      ∀ (i : Nat) (t : ι), tasks[i]? = some t → res[i]? = some (run t) := by
  have hres := Pool.run_batch_eq_map hexec hbatch
  subst hres
  refine ⟨List.length_map _ _, ?_⟩
  intro i t ht
  rw [List.getElem?_map, ht, Option.map_some']

/-- Witness for C1: a concrete three-task batch on a capacity-2 pool with an
out-of-order completion schedule. -/
theorem C1_witness :
    ([Pool.TaskResult.ok 11, Pool.TaskResult.ok 21, Pool.TaskResult.ok 31] :
        List (Pool.TaskResult Nat)).length = ([10, 20, 30] : List Nat).length ∧
      ∀ (i : Nat) (t : Nat), ([10, 20, 30] : List Nat)[i]? = some t →
        ([Pool.TaskResult.ok 11, Pool.TaskResult.ok 21, Pool.TaskResult.ok 31] :
          List (Pool.TaskResult Nat))[i]? = some (Pool.TaskResult.ok (t + 1)) :=
  C1_run_batch_positional (fun t => Pool.TaskResult.ok (t + 1)) 2 [10, 20, 30]
    [Pool.Event.start 0, Pool.Event.start 1, Pool.Event.finish 1, Pool.Event.finish 0,
      Pool.Event.start 2, Pool.Event.finish 2]
    [Pool.TaskResult.ok 11, Pool.TaskResult.ok 21, Pool.TaskResult.ok 31]
    (by decide) (by decide)

/-- C2: At every reachable state of the pool (any batch submitted to a fresh
pool of the given capacity, followed by any valid event trace), the number of
concurrently executing tasks lies in [0, capacity]. -/
theorem C2_active_count_bounded {ι β : Type} (run : ι → Pool.TaskResult β) (cap : Nat)
    (tasks : List ι) (s0 s : Pool.PoolState ι β) (evs : List (Pool.Event ι))
    (hsub : Pool.submitAll (Pool.mkPool ι β cap) tasks = .ok s0)
    (hrun : Pool.runEvents run s0 evs = some s) :
    0 ≤ Pool.active_count s ∧ Pool.active_count s ≤ cap := by
  rw [Pool.submitAll_mkPool] at hsub
  cases hsub
  have h0 : Pool.active_count ({ capacity := cap, tasks := tasks,
                                 phases := tasks.map (fun _ => Pool.TaskPhase.queued),
                                 closed := false } : Pool.PoolState ι β) = 0 := by
    refine List.countP_eq_zero.mpr ?_
    intro a ha
    rcases List.mem_map.mp ha with ⟨_, _, rfl⟩
    simp [Pool.TaskPhase.isRunning]
  have hle := Pool.runEvents_active_le evs _ s hrun (by rw [h0]; exact Nat.zero_le _) rfl
  exact ⟨Nat.zero_le _, hle.1⟩

/-- Witness for C2: one task on a capacity-1 pool, observed just after the
task starts. -/
theorem C2_witness :
    0 ≤ Pool.active_count (⟨1, [0], [Pool.TaskPhase.running], false⟩ :
        Pool.PoolState Nat Nat) ∧
      Pool.active_count (⟨1, [0], [Pool.TaskPhase.running], false⟩ :
        Pool.PoolState Nat Nat) ≤ 1 :=
  C2_active_count_bounded (fun t => Pool.TaskResult.ok t) 1 [0]
    ⟨1, [0], [Pool.TaskPhase.queued], false⟩ ⟨1, [0], [Pool.TaskPhase.running], false⟩
    [Pool.Event.start 0] (by rfl) (by rfl)

/-- C3: every task accepted by the pool produces exactly one Result (success
or failure): a completed batch has one Result per task, matching the task at
the same index, and a valid trace fires the completion event of any task at
most once (a task is executed at most once, never yielding two Results). -/
theorem C3_exactly_one_result {ι β : Type} [DecidableEq ι] (run : ι → Pool.TaskResult β)
    (cap : Nat) (tasks : List ι) (sched : List (Pool.Event ι))
    (res : List (Pool.TaskResult β))
    (hexec : ∀ ev ∈ sched, ev.isExec = true)
    (hbatch : Pool.run_batch run cap tasks sched = some res) :
    res.length = tasks.length ∧
      (∀ (i : Nat) (t : ι), tasks[i]? = some t → res[i]? = some (run t)) ∧
      ∀ i : Nat, sched.count (Pool.Event.finish i) ≤ 1 := by
  have hres := Pool.run_batch_eq_map hexec hbatch
  refine ⟨by rw [hres]; exact List.length_map _ _, ?_, ?_⟩
  · intro i t ht
    rw [hres, List.getElem?_map, ht, Option.map_some']
  · intro i
    rw [Pool.run_batch_unfold] at hbatch
    cases hrun : Pool.runEvents run { capacity := cap, tasks := tasks,
                                      phases := tasks.map (fun _ => Pool.TaskPhase.queued),
                                      closed := false } sched with
    | none =>
      rw [hrun] at hbatch
      have h2 : (none : Option (List (Pool.TaskResult β))) = some res := hbatch
      cases h2
    | some s => exact Pool.count_finish_le_one sched _ s hrun

/-- Witness for C3: a concrete two-task batch; each task finishes exactly
once. -/
theorem C3_witness :
    ([Pool.TaskResult.ok 10, Pool.TaskResult.ok 12] :
        List (Pool.TaskResult Nat)).length = ([5, 6] : List Nat).length ∧
      (∀ (i : Nat) (t : Nat), ([5, 6] : List Nat)[i]? = some t →
        ([Pool.TaskResult.ok 10, Pool.TaskResult.ok 12] :
          List (Pool.TaskResult Nat))[i]? = some (Pool.TaskResult.ok (t * 2))) ∧
      ∀ i : Nat, ([Pool.Event.start 0, Pool.Event.start 1, Pool.Event.finish 0,
        Pool.Event.finish 1] : List (Pool.Event Nat)).count (Pool.Event.finish i) ≤ 1 :=
  C3_exactly_one_result (fun t => Pool.TaskResult.ok (t * 2)) 2 [5, 6]
    [Pool.Event.start 0, Pool.Event.start 1, Pool.Event.finish 0, Pool.Event.finish 1]
    [Pool.TaskResult.ok 10, Pool.TaskResult.ok 12] (by decide) (by decide)

/-- C4: if exactly one task in a batch of N fails during execution, `run_batch`
still returns N entries, the failing task's slot holds the failure marker
(`TaskError`), and every other slot holds that task's correctly computed
value; the failure does not propagate to sibling tasks. -/
theorem C4_single_failure_isolated (N jfail cap : Nat) (f : Nat → Nat)
    (sched : List (Pool.Event Nat)) (res : List (Pool.TaskResult Nat))
    (hj : jfail < N)
    (hexec : ∀ ev ∈ sched, ev.isExec = true)
    (hbatch : Pool.run_batch
      (fun i => if i = jfail then Pool.TaskResult.taskError else Pool.TaskResult.ok (f i))
      cap (List.range N) sched = some res) :
    res.length = N ∧ res[jfail]? = some Pool.TaskResult.taskError ∧
      ∀ i : Nat, i < N → i ≠ jfail → res[i]? = some (Pool.TaskResult.ok (f i)) := by
  have hres := Pool.run_batch_eq_map hexec hbatch
  subst hres
  refine ⟨by simp, ?_, ?_⟩
  · rw [List.getElem?_map, List.getElem?_range hj, Option.map_some']
    simp
  · intro i hiN hine
    rw [List.getElem?_map, List.getElem?_range hiN, Option.map_some']
    simp [hine]

/-- Witness for C4: the spec's scenario — five tasks, task index 2 fails, the
other four values are returned intact. -/
theorem C4_witness :
    ([Pool.TaskResult.ok 0, Pool.TaskResult.ok 1, Pool.TaskResult.taskError,
        Pool.TaskResult.ok 9, Pool.TaskResult.ok 16] :
        List (Pool.TaskResult Nat)).length = 5 ∧
      ([Pool.TaskResult.ok 0, Pool.TaskResult.ok 1, Pool.TaskResult.taskError,
        Pool.TaskResult.ok 9, Pool.TaskResult.ok 16] :
        List (Pool.TaskResult Nat))[2]? = some Pool.TaskResult.taskError ∧
      ∀ i : Nat, i < 5 → i ≠ 2 →
        ([Pool.TaskResult.ok 0, Pool.TaskResult.ok 1, Pool.TaskResult.taskError,
          Pool.TaskResult.ok 9, Pool.TaskResult.ok 16] :
          List (Pool.TaskResult Nat))[i]? = some (Pool.TaskResult.ok (i * i)) :=
  C4_single_failure_isolated 5 2 4 (fun i => i * i)
    [Pool.Event.start 0, Pool.Event.start 1, Pool.Event.start 2, Pool.Event.start 3,
      Pool.Event.finish 2, Pool.Event.start 4, Pool.Event.finish 0, Pool.Event.finish 1,
      Pool.Event.finish 3, Pool.Event.finish 4]
    [Pool.TaskResult.ok 0, Pool.TaskResult.ok 1, Pool.TaskResult.taskError,
      Pool.TaskResult.ok 9, Pool.TaskResult.ok 16]
    (by decide) (by decide) (by decide)

/-- C5: `shutdown` with `wait = true` returns only when every previously
submitted task has a Result; `shutdown` with `wait = false` returns at once,
and afterwards a
queued-but-not-started task is abandoned (stays queued forever), while a task
that has already started is never forcibly interrupted: its completion event
stays enabled and it runs to completion, producing its own Result. -/
theorem C5_shutdown_semantics {ι β : Type} (run : ι → Pool.TaskResult β)
    (s : Pool.PoolState ι β) :
    (∀ s2, Pool.shutdown s true = some s2 →
      (∀ ph ∈ s.phases, ph.isDone = true) ∧ s2 = { s with closed := true }) ∧
    (Pool.shutdown s false = some { s with closed := true }) ∧
    (∀ (evs : List (Pool.Event ι)) (s2 : Pool.PoolState ι β) (i : Nat),
      s.closed = true → Pool.runEvents run s evs = some s2 →
      s.phases[i]? = some Pool.TaskPhase.queued →
      s2.phases[i]? = some Pool.TaskPhase.queued) ∧
    (∀ (i : Nat) (t : ι), s.phases[i]? = some Pool.TaskPhase.running →
      s.tasks[i]? = some t →
      Pool.step run s (Pool.Event.finish i) =
        some { s with phases := s.phases.set i (Pool.TaskPhase.done (run t)) }) := by
  refine ⟨?_, ?_, ?_, ?_⟩
  · intro s2 h
    rw [Pool.shutdown, if_pos rfl] at h
    by_cases hd : Pool.allDone s = true
    · rw [if_pos hd] at h
      cases h
      rw [Pool.allDone] at hd
      exact ⟨List.all_eq_true.mp hd, rfl⟩
    · rw [if_neg hd] at h
      cases h
  · rw [Pool.shutdown, if_neg (by simp)]
  · intro evs s2 i hc hrun hq
    exact Pool.runEvents_queued_frozen evs s s2 hrun hc hq
  · intro i t hr ht
    simp [Pool.step, hr, ht]

/-- Witness for C5: after shutdown, a running task finishes (the trace fires
its completion) while the queued task stays queued. -/
theorem C5_witness :
    (⟨1, [7, 8], [Pool.TaskPhase.done (Pool.TaskResult.ok 8), Pool.TaskPhase.queued],
        true⟩ : Pool.PoolState Nat Nat).phases[1]? = some Pool.TaskPhase.queued :=
  (C5_shutdown_semantics (fun t => Pool.TaskResult.ok (t + 1))
      ⟨1, [7, 8], [Pool.TaskPhase.running, Pool.TaskPhase.queued], true⟩).2.2.1
    [Pool.Event.finish 0]
    ⟨1, [7, 8], [Pool.TaskPhase.done (Pool.TaskResult.ok 8), Pool.TaskPhase.queued], true⟩
    1 (by decide) (by decide) (by decide)

/-- C6: `submit` fails, with `PoolClosed` and no other error, exactly when it
is invoked after a shutdown event; on a pool that has not been shut down,
`submit` never raises `PoolClosed`. -/
theorem C6_submit_poolclosed_iff {ι β : Type} (run : ι → Pool.TaskResult β) (cap : Nat)
    (evs : List (Pool.Event ι)) (s : Pool.PoolState ι β) (t : ι)
    (hrun : Pool.runEvents run (Pool.mkPool ι β cap) evs = some s) :
    ((∃ e, Pool.submit s t = .error e) ↔ ∃ w, Pool.Event.shutdown w ∈ evs) ∧
      ∀ e, Pool.submit s t = .error e → e = Pool.PoolError.poolClosed := by
  have herr : (∃ e, Pool.submit s t = .error e) ↔ s.closed = true := by
    constructor
    · rintro ⟨e, he⟩
      by_cases hc : s.closed = true
      · exact hc
      · rw [Pool.submit, if_neg hc] at he
        cases he
    · intro hc
      exact ⟨Pool.PoolError.poolClosed, by rw [Pool.submit, if_pos hc]⟩
  constructor
  · rw [herr]
    constructor
    · intro hc
      by_contra hno
      push_neg at hno
      have hfalse : s.closed = false := by
        have h2 := Pool.runEvents_closed_eq evs _ s hrun hno
        simpa [Pool.mkPool] using h2
      rw [hc] at hfalse
      cases hfalse
    · rintro ⟨w, hw⟩
      exact Pool.runEvents_closed_of_shutdown_mem evs _ s w hrun hw
  · intro e _
    cases e
    rfl

/-- Witness for C6: a pool shut down with `wait := false` refuses a subsequent
submission with `PoolClosed`. -/
theorem C6_witness :
    ((∃ e, Pool.submit (⟨2, [], [], true⟩ : Pool.PoolState Nat Nat) 3 = .error e) ↔
      ∃ w, Pool.Event.shutdown w ∈ ([Pool.Event.shutdown false] : List (Pool.Event Nat))) ∧
      ∀ e, Pool.submit (⟨2, [], [], true⟩ : Pool.PoolState Nat Nat) 3 = .error e →
        e = Pool.PoolError.poolClosed :=
  C6_submit_poolclosed_iff (fun t => Pool.TaskResult.ok t) 2 [Pool.Event.shutdown false]
    ⟨2, [], [], true⟩ 3 (by rfl)

/-- C7: `run_batch` is deterministic with respect to internal scheduling: two
successful executions over the same ordered batch of pure tasks, under any two
completion orders, return equal result sequences. -/
theorem C7_run_batch_deterministic {ι β : Type} (run : ι → Pool.TaskResult β) (cap : Nat)
    (tasks : List ι) (sched1 sched2 : List (Pool.Event ι))
    (res1 res2 : List (Pool.TaskResult β))
    (hexec1 : ∀ ev ∈ sched1, ev.isExec = true)
    (hexec2 : ∀ ev ∈ sched2, ev.isExec = true)
    (h1 : Pool.run_batch run cap tasks sched1 = some res1)
    (h2 : Pool.run_batch run cap tasks sched2 = some res2) :
    res1 = res2 := by
  rw [Pool.run_batch_eq_map hexec1 h1, Pool.run_batch_eq_map hexec2 h2]

/-- Witness for C7: the same two-task batch under two different completion
orders returns the same sequence. -/
theorem C7_witness :
    ([Pool.TaskResult.ok 2, Pool.TaskResult.ok 3] : List (Pool.TaskResult Nat)) =
      [Pool.TaskResult.ok 2, Pool.TaskResult.ok 3] :=
  C7_run_batch_deterministic (fun t => Pool.TaskResult.ok (t + 1)) 2 [1, 2]
    [Pool.Event.start 0, Pool.Event.start 1, Pool.Event.finish 0, Pool.Event.finish 1]
    [Pool.Event.start 0, Pool.Event.start 1, Pool.Event.finish 1, Pool.Event.finish 0]
    [Pool.TaskResult.ok 2, Pool.TaskResult.ok 3]
    [Pool.TaskResult.ok 2, Pool.TaskResult.ok 3]
    (by decide) (by decide) (by decide) (by decide)

/-- C8: submitting the 10 tasks `i ↦ sum(range(i*100, (i+1)*100))` to a
capacity-4 pool and collecting with `run_batch` yields exactly
`[4950, 14950, ..., 94950]` in index order, the i-th result being
`10000 * i + 4950`, under every completion order. -/
theorem C8_sum_batch_scenario (sched : List (Pool.Event Nat))
    (res : List (Pool.TaskResult Nat))
    (hexec : ∀ ev ∈ sched, ev.isExec = true)
    (hbatch : Pool.run_batch Day4.sumTask 4 (List.range 10) sched = some res) :
    res = [Pool.TaskResult.ok 4950, Pool.TaskResult.ok 14950, Pool.TaskResult.ok 24950,
        Pool.TaskResult.ok 34950, Pool.TaskResult.ok 44950, Pool.TaskResult.ok 54950,
        Pool.TaskResult.ok 64950, Pool.TaskResult.ok 74950, Pool.TaskResult.ok 84950,
        Pool.TaskResult.ok 94950] ∧
      ∀ i : Nat, i < 10 → res[i]? = some (Pool.TaskResult.ok (10000 * i + 4950)) := by
  have hres := Pool.run_batch_eq_map hexec hbatch
  subst hres
  exact ⟨by decide, by decide⟩

/-- Witness for C8: a concrete capacity-respecting schedule of the ten sum
tasks. -/
theorem C8_witness :
    ([Pool.TaskResult.ok 4950, Pool.TaskResult.ok 14950, Pool.TaskResult.ok 24950,
        Pool.TaskResult.ok 34950, Pool.TaskResult.ok 44950, Pool.TaskResult.ok 54950,
        Pool.TaskResult.ok 64950, Pool.TaskResult.ok 74950, Pool.TaskResult.ok 84950,
        Pool.TaskResult.ok 94950] : List (Pool.TaskResult Nat)) =
      [Pool.TaskResult.ok 4950, Pool.TaskResult.ok 14950, Pool.TaskResult.ok 24950,
        Pool.TaskResult.ok 34950, Pool.TaskResult.ok 44950, Pool.TaskResult.ok 54950,
        Pool.TaskResult.ok 64950, Pool.TaskResult.ok 74950, Pool.TaskResult.ok 84950,
        Pool.TaskResult.ok 94950] ∧
      ∀ i : Nat, i < 10 →
        ([Pool.TaskResult.ok 4950, Pool.TaskResult.ok 14950, Pool.TaskResult.ok 24950,
          Pool.TaskResult.ok 34950, Pool.TaskResult.ok 44950, Pool.TaskResult.ok 54950,
          Pool.TaskResult.ok 64950, Pool.TaskResult.ok 74950, Pool.TaskResult.ok 84950,
          Pool.TaskResult.ok 94950] : List (Pool.TaskResult Nat))[i]? =
          some (Pool.TaskResult.ok (10000 * i + 4950)) :=
  C8_sum_batch_scenario
    [Pool.Event.start 0, Pool.Event.start 1, Pool.Event.start 2, Pool.Event.start 3,
      Pool.Event.finish 0, Pool.Event.finish 1, Pool.Event.finish 2, Pool.Event.finish 3,
      Pool.Event.start 4, Pool.Event.start 5, Pool.Event.start 6, Pool.Event.start 7,
      Pool.Event.finish 4, Pool.Event.finish 5, Pool.Event.finish 6, Pool.Event.finish 7,
      Pool.Event.start 8, Pool.Event.start 9, Pool.Event.finish 8, Pool.Event.finish 9]
    [Pool.TaskResult.ok 4950, Pool.TaskResult.ok 14950, Pool.TaskResult.ok 24950,
      Pool.TaskResult.ok 34950, Pool.TaskResult.ok 44950, Pool.TaskResult.ok 54950,
      Pool.TaskResult.ok 64950, Pool.TaskResult.ok 74950, Pool.TaskResult.ok 84950,
      Pool.TaskResult.ok 94950]
    (by decide) (by decide)

/-- C9: for every matrix, the ten tasks `matrix_loop(mat, i)` compute the row
slices `[len/10 * i, len/10 * (i+1))` of `mat.dot(mat.T)`; the slices are
pairwise disjoint, and concatenated in index order they equal the full product
if and only if the row count is divisible by 10 — otherwise the last
`len mod 10` rows are computed by no task. -/
theorem C9_matrix_loop_slices (mat : List (List Int)) :
    (∀ index : Nat, Day4.matrix_loop mat index =
      ((Day4.matMul mat mat.transpose).drop (mat.length / 10 * index)).take
        (mat.length / 10)) ∧
    (∀ i j r : Nat, i < 10 → j < 10 → i ≠ j →
      Day4.coveredRows mat i r → Day4.coveredRows mat j r → False) ∧
    ((List.range 10).flatMap (Day4.matrix_loop mat) = Day4.matMul mat mat.transpose ↔
      10 ∣ mat.length) ∧
    (∀ r : Nat, mat.length - mat.length % 10 ≤ r → ∀ i : Nat, i < 10 →
      ¬ Day4.coveredRows mat i r) := by
  refine ⟨Day4.matrix_loop_eq_slice mat, ?_, Day4.join_matrix_loop_iff mat, ?_⟩
  · rintro i j r _ _ hij ⟨hlo1, hhi1⟩ ⟨hlo2, hhi2⟩
    rcases Nat.lt_or_ge i j with hij2 | hij2
    · have hle : mat.length / 10 * (i + 1) ≤ mat.length / 10 * j :=
        Nat.mul_le_mul_left _ hij2
      omega
    · have hji : j < i := by omega
      have hle : mat.length / 10 * (j + 1) ≤ mat.length / 10 * i :=
        Nat.mul_le_mul_left _ hji
      omega
  · rintro r hr i hi ⟨hlo, hhi⟩
    have h1 : mat.length / 10 * (i + 1) ≤ mat.length / 10 * 10 :=
      Nat.mul_le_mul_left _ (by omega)
    omega

/-- Witness for C9: a 10-row matrix, where the ten chunks rebuild the full
product. -/
theorem C9_witness :
    (List.range 10).flatMap
        (Day4.matrix_loop [[1], [1], [1], [1], [1], [1], [1], [1], [1], [1]]) =
      Day4.matMul [[1], [1], [1], [1], [1], [1], [1], [1], [1], [1]]
        (List.transpose [[1], [1], [1], [1], [1], [1], [1], [1], [1], [1]]) :=
  (C9_matrix_loop_slices [[1], [1], [1], [1], [1], [1], [1], [1], [1], [1]]).2.2.1.mpr
    (by decide)

/-- C10: `process_image(frame, filtersize)` returns exactly
`frame - median_filter(frame, filtersize)`, elementwise, with the same shape
as `frame` (the pure embedding leaves `frame` itself unmodified by
construction); consequently every constant-valued rectangular frame is mapped
to an all-zero frame. -/
theorem C10_process_image_highpass (frame : List (List Int)) (filtersize : Nat) :
    Day4.process_image frame filtersize =
      List.zipWith (fun r rs => List.zipWith (fun a b => a - b) r rs) frame
        (Day4.median_filter frame filtersize) ∧
    (Day4.process_image frame filtersize).length = frame.length ∧
    (∀ i : Nat, ((Day4.process_image frame filtersize).getD i []).length =
      (frame.getD i []).length) ∧
    (∀ (c : Int) (w : Nat), 0 < filtersize →
      (∀ row ∈ frame, row.length = w) →
      (∀ row ∈ frame, ∀ x ∈ row, x = c) →
      ∀ i j : Nat, ((Day4.process_image frame filtersize).getD i []).getD j 0 = 0) :=
  ⟨Day4.process_image_def frame filtersize, Day4.process_image_length frame filtersize,
    Day4.process_image_row_length frame filtersize,
    fun _ _ hs hrect hconst => Day4.process_image_const_zero hs hrect hconst⟩

/-- Witness for C10: a constant 2 × 2 frame is processed to zeros. -/
theorem C10_witness :
    ((Day4.process_image [[5, 5], [5, 5]] 3).getD 0 []).getD 0 0 = 0 ∧
      ((Day4.process_image [[5, 5], [5, 5]] 3).getD 1 []).getD 1 0 = 0 :=
  ⟨(C10_process_image_highpass [[5, 5], [5, 5]] 3).2.2.2 5 2 (by decide) (by decide)
      (by decide) 0 0,
    (C10_process_image_highpass [[5, 5], [5, 5]] 3).2.2.2 5 2 (by decide) (by decide)
      (by decide) 1 1⟩
